import Mathlib

/-!
# Verification of the DevPulse query-understanding / multi-source search engine

This file is a shallow embedding, in Lean 4, of the core of the DevPulse
search engine, translated from the Python sources:

* `api/services/relevance_scorer.py`     (`RelevanceScorer`)
* `api/services/synth_search_service_v2.py` (`SynthSearchServiceV2`)
* `api/services/intent_classifier.py`    (`IntentClassifier`)
* `api/services/sources/github_source.py` (`GitHubSource`)
* `api/services/search_cache_service.py` (`SearchCacheService`)
* `api/services/source_registry.py`      (`SearchResult`)

Modelling conventions:

* Python strings are `List Char`; `chars` converts a Lean string literal.
* Scores computed by the scorer are exact multiples of 0.1 (every additive
  contribution is a whole number of points and the only multiplier is `* 1.1`
  applied to a whole-number subtotal), so they are represented exactly as
  natural numbers counting **tenths of a point**; `calculateRelevance`
  divides by 10 to give the rational score.  Python `float` rounding is
  immaterial at this scale and is not modelled.
* Network calls are abstracted as function parameters (`fetch`), time as an
  integer parameter, and exceptions as `Except`/`Bool` flags.
-/

/-- The characters of a string literal. -/
def chars (s : String) : List Char := s.data

/-! ## Text primitives shared by the scorer

Python's `re` module is used by `RelevanceScorer` only through the patterns
`r'\b' + re.escape(term) + r'\b'` (word-boundary-delimited literal term,
counted with `re.findall`, anchored with `re.match` for the title-start
bonus, or probed with `re.search` for tags) and the quoted-phrase pattern
`r'"([^"]+)"'`.  These are modelled directly. -/

/-- Python regex `\w` (word character), restricted to ASCII text:
letters, digits, or underscore. -/
def wordish (c : Char) : Bool := c.isAlphanum || c == '_'

/-- Word-character status of the first character of a string
(`false` for the empty string, matching `\b`'s treatment of
the out-of-bounds position as a non-word character). -/
def whead : List Char → Bool
  | [] => false
  | c :: _ => wordish c

/-- Word-character status of the last character of a string. -/
def wlast (t : List Char) : Bool :=
  match t.getLast? with
  | some c => wordish c
  | none => false

/-- One regex-engine attempt at the current position for the pattern
`\b term \b`: the term is a literal prefix here and there is a word boundary
on each side.  `prevW` is the word-character status of the character just
before the current position (`false` at the start of the string);
a `\b` holds where the word-character status changes. -/
def matchHere (t : List Char) (prevW : Bool) (s : List Char) : Bool :=
  !t.isEmpty && t.isPrefixOf s && (prevW != whead t) && (wlast t != whead (s.drop t.length))

/-- Fuelled left-to-right non-overlapping scan, the semantics of
`len(re.findall(pattern, s))` for the pattern `\b term \b`: on a match the
engine resumes right after the matched span, otherwise it advances one
character.  Fuel (an upper bound on remaining positions) makes the
recursion structural. -/
def scanAux (t : List Char) : ℕ → Bool → List Char → ℕ
  | 0, _, _ => 0
  | _ + 1, _, [] => 0
  | fuel + 1, prevW, c :: rest =>
    if matchHere t prevW (c :: rest) then
      1 + scanAux t fuel (wlast t) ((c :: rest).drop t.length)
    else
      scanAux t fuel (wordish c) rest

/-- `len(re.findall(r'\b' + re.escape(term) + r'\b', s))` with the scan
started at string position 0 (no preceding character). -/
def scanFromW (t : List Char) (w : Bool) (s : List Char) : ℕ := scanAux t s.length w s

/-- Number of word-boundary matches of `term` in `s`, scanning from the start. -/
def scanCount (t s : List Char) : ℕ := scanFromW t false s

/-- Python `needle in hay` for strings: substring containment. -/
def containsSub (needle : List Char) : List Char → Bool
  | [] => needle.isEmpty
  | c :: rest => needle.isPrefixOf (c :: rest) || containsSub needle rest

/-- Python `str.lower()` on ASCII text, applied characterwise. -/
def toLowerStr (s : List Char) : List Char := s.map Char.toLower

/-- Python whitespace, as consumed by `str.split()` and `str.strip()`. -/
def isWS (c : Char) : Bool :=
  c == ' ' || c == '\t' || c == '\n' || c == '\r' || c == '\x0b' || c == '\x0c'

/-- Helper of `splitWS`: the accumulator holds the (reversed) current word. -/
def splitWSAux : List Char → List Char → List (List Char)
  | [], acc => if acc.isEmpty then [] else [acc.reverse]
  | c :: rest, acc =>
    if isWS c then
      if acc.isEmpty then splitWSAux rest [] else acc.reverse :: splitWSAux rest []
    else
      splitWSAux rest (c :: acc)

/-- Python `str.split()` (split on runs of whitespace, no empty words). -/
def splitWS (s : List Char) : List (List Char) := splitWSAux s []

/-! ## RelevanceScorer (`api/services/relevance_scorer.py`)

The deterministic keyword-only path is embedded (`use_embeddings = False`,
i.e. no `OPENAI_API_KEY`; with embeddings enabled the scorer blends in a
network-dependent semantic similarity, which is outside the pure core).
All point values appear multiplied by 10 (tenths of a point). -/

/-- `RelevanceScorer.STOP_WORDS`. -/
def scorerStopWords : List (List Char) :=
  [chars "a", chars "an", chars "and", chars "are", chars "as", chars "at",
   chars "be", chars "by", chars "for", chars "from", chars "has", chars "he",
   chars "in", chars "is", chars "it", chars "its", chars "of", chars "on",
   chars "that", chars "the", chars "to", chars "was", chars "will",
   chars "with", chars "i", chars "me", chars "my", chars "we", chars "you",
   chars "your", chars "can", chars "could", chars "should", chars "would",
   chars "this", chars "these", chars "those", chars "what", chars "which",
   chars "who", chars "how", chars "when", chars "where", chars "why",
   chars "am", chars "been", chars "being", chars "have", chars "had",
   chars "do", chars "does", chars "did", chars "about", chars "after",
   chars "before", chars "show", chars "find", chars "get", chars "search"]

/-- Quoted-phrase extraction of `RelevanceScorer._parse_query`: the state
machine of `re.finditer(r'"([^"]+)"', query)` together with
`re.sub(phrase_pattern, '', query)`.  Returns (phrases, remaining query).
`none` = outside quotes; `some buf` = inside a quote, with the (reversed)
content read so far.  An opening quote immediately followed by another
quote does not match (`[^"]+` needs at least one character): the first
quote stays literal and scanning resumes at the second.  An unclosed
trailing quote and its buffered content stay literal.  Matched phrase
content is lowercased, as in `match.group(1).lower()`. -/
def pqAux : List Char → Option (List Char) → List (List Char) × List Char
  | [], none => ([], [])
  | [], some buf => ([], '"' :: buf.reverse)
  | c :: rest, none =>
    if c == '"' then pqAux rest (some [])
    else
      let r := pqAux rest none
      (r.1, c :: r.2)
  | c :: rest, some buf =>
    if c == '"' then
      if buf.isEmpty then
        let r := pqAux rest (some [])
        (r.1, '"' :: r.2)
      else
        let r := pqAux rest none
        (buf.reverse.map Char.toLower :: r.1, r.2)
    else pqAux rest (some (c :: buf))

/-- `RelevanceScorer._parse_query`: quoted phrases (lowercased), and the
remaining words lowercased, split on whitespace, with stop words and
one-character words dropped. -/
def parseQuery (q : List Char) : List (List Char) × List (List Char) :=
  let e := pqAux q none
  let words := splitWS (toLowerStr e.2)
  (e.1, words.filter (fun w => !scorerStopWords.contains w && w.length > 1))

/-- `RelevanceScorer._score_phrases`, contribution of one phrase
(all inputs already lowercased).  Tenths of a point. -/
def phrasePoints (ph title body : List Char) (tags : List (List Char)) : ℕ :=
  if containsSub ph title then
    if ph.isPrefixOf title then 600
    else if ph.isSuffixOf title then 500
    else 450
  else if containsSub ph body then 300
  else if tags.any (fun tag => containsSub ph tag) then 250
  else 0

/-- Sum of `phrasePoints` over the parsed phrases. -/
def phrasesPoints (phrases : List (List Char)) (title body : List Char)
    (tags : List (List Char)) : ℕ :=
  (phrases.map (fun ph => phrasePoints ph title body tags)).sum

/-- Title part of `RelevanceScorer._score_terms` for one term:
`35` base, `+5` per repeated occurrence, `+10` if the term matches at the
start of the title (`re.match(r'^' + pattern, title)`).  Tenths. -/
def titleTermPoints (t title : List Char) : ℕ :=
  if scanCount t title > 0 then
    350 + (scanCount t title - 1) * 50 + (if matchHere t false title then 100 else 0)
  else 0

/-- Body part of `_score_terms` for one term: `15 + min(body_matches - 1, 5)`. -/
def bodyTermPoints (t body : List Char) : ℕ :=
  if scanCount t body > 0 then 150 + min (scanCount t body - 1) 5 * 10 else 0

/-- Tag part of `_score_terms` for one term: `+20` once if any tag has a
word-boundary match (`re.search`), the loop breaking at the first. -/
def tagTermPoints (t : List Char) (tags : List (List Char)) : ℕ :=
  if tags.any (fun tag => scanCount t tag > 0) then 200 else 0

/-- `_score_terms` contribution of one term: title match takes precedence,
else the body is consulted (only when a body is present), and tag points
are added independently. -/
def termPoints (t title body : List Char) (tags : List (List Char)) : ℕ :=
  (if scanCount t title > 0 then titleTermPoints t title
   else if !body.isEmpty then bodyTermPoints t body
   else 0) + tagTermPoints t tags

/-- The `term_matched` flag of `_score_terms` for one term. -/
def termMatched (t title body : List Char) (tags : List (List Char)) : Bool :=
  scanCount t title > 0 || (!body.isEmpty && scanCount t body > 0) ||
    tags.any (fun tag => scanCount t tag > 0)

/-- `_score_terms`: per-term points plus the comprehensiveness bonus
`matched_terms * 10` when more than one term matched. -/
def termsPoints (terms : List (List Char)) (title body : List Char)
    (tags : List (List Char)) : ℕ :=
  (terms.map (fun t => termPoints t title body tags)).sum +
    (if terms.countP (fun t => termMatched t title body tags) > 1 then
      terms.countP (fun t => termMatched t title body tags) * 100
     else 0)

/-- The `metadata` dict handed to `calculate_relevance`
(keys `stars`, `year`, `has_description`). -/
structure ScoreMetadata where
  stars : ℕ
  year : Option ℕ
  hasDescription : Bool
deriving DecidableEq

/-- `RelevanceScorer._score_metadata`.  Tenths of a point. -/
def metadataPoints (m : ScoreMetadata) : ℕ :=
  (if m.stars > 1000 then 50 else if m.stars > 100 then 30
   else if m.stars > 10 then 10 else 0) +
  (match m.year with
   | some y => if y ≥ 2024 then 50 else if y ≥ 2023 then 30 else 0
   | none => 0) +
  (if m.hasDescription then 30 else 0)

/-- The metadata bonus of `calculate_relevance` (`if metadata:` — an absent
or empty dict contributes nothing). -/
def mdOptPoints : Option ScoreMetadata → ℕ
  | some m => metadataPoints m
  | none => 0

/-- Keyword score of `calculate_relevance` (before the final cap):
phrase and term points, multiplied by 1.1 for multi-part queries
(`len(terms) + len(phrases) > 1`; exact on tenths because the subtotal is a
whole number of points), plus the metadata bonus. -/
def keywordScore (phrases terms : List (List Char)) (title body : List Char)
    (tags : List (List Char)) (md : Option ScoreMetadata) : ℕ :=
  (if phrases.length + terms.length > 1 then
    (phrasesPoints phrases title body tags + termsPoints terms title body tags) * 11 / 10
   else phrasesPoints phrases title body tags + termsPoints terms title body tags) +
    mdOptPoints md

/-- `RelevanceScorer.calculate_relevance` in tenths of a point:
50.0 for an effectively empty query (`not search_query.strip()`, or a parse
with no phrases and no terms), otherwise the keyword score capped at 100. -/
def calculateRelevanceTenths (title body : List Char) (tags : List (List Char))
    (query : List Char) (md : Option ScoreMetadata) : ℕ :=
  if query.all isWS then 500
  else if (parseQuery query).1.isEmpty && (parseQuery query).2.isEmpty then 500
  else
    min (keywordScore (parseQuery query).1 (parseQuery query).2 (toLowerStr title)
           (toLowerStr body) (tags.map toLowerStr) md) 1000

/-- `RelevanceScorer.calculate_relevance` (score in points, 0–100). -/
def calculateRelevance (title body : List Char) (tags : List (List Char))
    (query : List Char) (md : Option ScoreMetadata) : ℚ :=
  (calculateRelevanceTenths title body tags query md : ℚ) / 10

/-! ## SearchResult and the V2 orchestrator (`synth_search_service_v2.py`)

`SearchResult` (from `source_registry.py`) carries the fields the
orchestrator reads.  The per-source relevance score computed by the
adapters is stored under `metadata['relevance_score']` and a publication
date under `metadata['created_at']`; neither is an *attribute* of the
`SearchResult` object, which matters for the time-sensitive sort. -/

/-- `SearchResult` of `source_registry.py`.  `score` is the source-native
popularity count (stars / upvotes / points); `relevanceScoreTenths` models
`metadata['relevance_score']` (tenths of a point) and `createdAtMeta`
models `metadata['created_at']`. -/
structure SearchResult where
  title : String
  url : String
  source : String
  description : String := ""
  author : String := ""
  score : ℤ
  relevanceScoreTenths : ℕ := 0
  createdAtMeta : Option String := none
deriving DecidableEq

/-- `getattr(x, 'created_at', datetime.min)` as used by the orchestrator's
time-sensitive sort.  `SearchResult` defines no `created_at` attribute
(the date only exists inside the `metadata` dict, which `getattr` does not
consult), so for every result this returns the default `datetime.min`,
modelled as 0. -/
def getattrCreatedAt (_ : SearchResult) : ℕ := 0

/-- Sort relation of `all_results.sort(key=lambda x: x.score, reverse=True)`:
`a` may be placed before `b` iff `a`'s native score is at least `b`'s.
Python's sort is stable, so among equal keys the pre-sort order is kept;
a stable insertion sort below realises the same permutation. -/
def scoreGe (a b : SearchResult) : Prop := b.score ≤ a.score

instance : DecidableRel scoreGe := fun a b => inferInstanceAs (Decidable (b.score ≤ a.score))

/-- Sort relation of the time-sensitive branch,
`key=lambda x: (getattr(x, 'created_at', datetime.min), x.score)` with
`reverse=True`: descending lexicographic order on (date, native score). -/
def timeGe (a b : SearchResult) : Prop :=
  getattrCreatedAt b < getattrCreatedAt a ∨
    (getattrCreatedAt b = getattrCreatedAt a ∧ b.score ≤ a.score)

instance : DecidableRel timeGe := fun a b =>
  inferInstanceAs (Decidable (getattrCreatedAt b < getattrCreatedAt a ∨
    (getattrCreatedAt b = getattrCreatedAt a ∧ b.score ≤ a.score)))

/-- The sort step of `SynthSearchServiceV2.search` /
`search_with_intent`: time-sensitive queries sort by (date, score)
descending, others by native score descending (stable). -/
def sortResults (timeSensitive : Bool) (l : List SearchResult) : List SearchResult :=
  if timeSensitive then List.insertionSort timeGe l else List.insertionSort scoreGe l

/-- One iteration of the deduplication loop of `search`: the state is the
accumulated unique results plus the `seen_urls` set. -/
def dedupStep (st : List SearchResult × List String) (r : SearchResult) :
    List SearchResult × List String :=
  if r.url ∈ st.2 then st else (st.1 ++ [r], r.url :: st.2)

/-- The deduplication loop of `search` (`seen_urls` set, first occurrence
kept), keyed on the **exact** `result.url` string. -/
def dedupByUrl (l : List SearchResult) : List SearchResult :=
  (l.foldl dedupStep ([], [])).1

/-- Result post-processing of `SynthSearchServiceV2.search`: sort, then
deduplicate by URL, then truncate to the top 15. -/
def searchResults (timeSensitive : Bool) (gathered : List SearchResult) : List SearchResult :=
  (dedupByUrl (sortResults timeSensitive gathered)).take 15

/-- The per-source error string built in `search`:
`f"Error searching {source_name}: {str(result)}"`. -/
def errorMsg (sourceName msg : String) : String :=
  "Error searching " ++ sourceName ++ ": " ++ msg

/-- The fan-out collection loop of `search`: `asyncio.gather(...,
return_exceptions=True)` yields, per launched source task, either a result
list or an exception; exceptions become entries of `errors`, results are
concatenated in task order. -/
def collectOutcomes (outcomes : List (String × Except String (List SearchResult))) :
    List SearchResult × List String :=
  outcomes.foldl
    (fun st o =>
      match o.2 with
      | .error e => (st.1, st.2 ++ [errorMsg o.1 e])
      | .ok rs => (st.1 ++ rs, st.2))
    ([], [])

/-- The response assembled by `SynthSearchServiceV2.search` (the fields the
claims are about: `results`, `total_found`, `errors`). -/
structure SearchResponse where
  results : List SearchResult
  totalFound : ℕ
  errors : List String
deriving DecidableEq

/-- `SynthSearchServiceV2.search` downstream of the fan-out, as a function
of the per-source outcomes: collect results and errors, sort, deduplicate,
truncate, and report `total_found = len(results)`.  A failed source only
ever contributes an error string; the response itself is always produced. -/
def searchResponse (timeSensitive : Bool)
    (outcomes : List (String × Except String (List SearchResult))) : SearchResponse :=
  let c := collectOutcomes outcomes
  let final := searchResults timeSensitive c.1
  { results := final, totalFound := final.length, errors := c.2 }

/-- Normalized URL as the specification defines it.
Modelled from the spec: "its identity for deduplication is the normalized
URL (scheme+host+path, query string stripped)" — everything before the
first `?`.  The code has no counterpart of this definition; it is stated
here only to compare the spec's deduplication key with the code's. -/
def specNormalizedUrl (u : String) : List Char := u.data.takeWhile (fun c => c ≠ '?')

/-! ## Explicit-source detection of `SynthSearchServiceV2`
(`_detect_explicit_source` and step 1/2 of `parse_search_intent`). -/

/-- `SynthSearchServiceV2._detect_explicit_source`'s pattern table, in
dict insertion order; matching is plain substring containment on the
lowercased query. -/
def explicitSourcePatterns : List (String × List (List Char)) :=
  [("reddit", [chars "on reddit", chars "from reddit", chars "in reddit",
               chars "at reddit", chars "r/"]),
   ("github", [chars "on github", chars "from github", chars "in github",
               chars "at github"]),
   ("hackernews", [chars "on hackernews", chars "on hacker news", chars "on hn",
                   chars "from hn", chars "from hackernews", chars "in hn"]),
   ("devto", [chars "on dev.to", chars "on devto", chars "from dev.to",
              chars "at dev.to", chars "in dev.to"]),
   ("stocks", [chars "stock for", chars "stocks for", chars "ticker for"]),
   ("crypto", [chars "crypto for", chars "cryptocurrency for", chars "price of"])]

/-- `SynthSearchServiceV2._detect_explicit_source`: the first source (in
table order) one of whose patterns occurs in the query. -/
def detectExplicitSource (q : List Char) : Option String :=
  (explicitSourcePatterns.find? (fun sp => sp.2.any (fun pat => containsSub pat q))).map
    Prod.fst

/-- `SynthSearchServiceV2.source_keywords`, the implicit-detection table. -/
def sourceKeywords : List (String × List (List Char)) :=
  [("github", [chars "github", chars "repo", chars "repository", chars "code",
               chars "project", chars "open source", chars "opensource"]),
   ("reddit", [chars "reddit", chars "discussion", chars "community",
               chars "thread", chars "post"]),
   ("hackernews", [chars "hackernews", chars "hn", chars "hacker news",
                   chars "tech news"]),
   ("devto", [chars "dev.to", chars "devto", chars "dev to", chars "article",
              chars "tutorial", chars "guide"]),
   ("stocks", [chars "stock", chars "stocks", chars "ticker", chars "market",
               chars "nasdaq", chars "nyse", chars "trading"]),
   ("crypto", [chars "crypto", chars "cryptocurrency", chars "bitcoin",
               chars "ethereum", chars "blockchain", chars "coin"]),
   ("ign", [chars "ign", chars "gaming", chars "game", chars "video game",
            chars "game news", chars "game review"]),
   ("pcgamer", [chars "pc gamer", chars "pcgamer", chars "pc gaming",
                chars "pc game"])]

/-- Source-selection steps 1–2 of `SynthSearchServiceV2.parse_search_intent`
(on the lowercased query): an explicit source match selects exactly that
one source (exclusive mode); otherwise sources are picked by implicit
keyword containment, falling back to every registered source. -/
def parseSearchIntentSources (q : List Char) (registryNames : List String) : List String :=
  match detectExplicitSource q with
  | some s => [s]
  | none =>
    let implicit := (sourceKeywords.filter (fun sk =>
      sk.2.any (fun kw => containsSub kw q))).map Prod.fst
    if implicit.isEmpty then registryNames else implicit

/-! ## IntentClassifier (`intent_classifier.py`) -/

/-- `IntentType` of `intent_classifier.py`. -/
inductive IntentType
  | code_search
  | tutorial
  | discussion
  | news
  | price_check
  | documentation
  | gaming
  | general
deriving DecidableEq

/-- The entity lists of `IntentClassifier._extract_entities` (a key is
absent from the returned dict exactly when its list is empty). -/
structure Entities where
  languages : List (List Char) := []
  frameworks : List (List Char) := []
  topics : List (List Char) := []
  games : List (List Char) := []
  cryptocurrencies : List (List Char) := []
  stocks : List (List Char) := []
deriving DecidableEq

/-- `sum(len(v) for v in entities.values())` (dropping empty lists does not
change the sum). -/
def entityCount (e : Entities) : ℕ :=
  e.languages.length + e.frameworks.length + e.topics.length + e.games.length +
    e.cryptocurrencies.length + e.stocks.length

/-- `IntentClassifier._calculate_confidence`.  `query` is the lowercased,
stripped query; the word count is `len(query.split())`.  The Python code
accumulates the contributions into a running total; since no contribution
depends on the running total, the accumulation is written as a sum. -/
def calculateConfidence (detectedSources : List String) (intent : IntentType)
    (ents : Entities) (keywords : List (List Char)) (query : List Char) : ℚ :=
  min
    ((if !detectedSources.isEmpty then 0.30 else 0) +
     (if intent ≠ IntentType.general then
        if intent = IntentType.price_check ∨ intent = IntentType.tutorial then 0.25
        else 0.20
      else 0) +
     (if entityCount ents > 0 then min ((entityCount ents : ℚ) * 0.10) 0.30 else 0) +
     (if keywords.length ≥ 1 then
        if keywords.length ≥ 3 then 0.10 + 0.05 else 0.10
      else 0) +
     (if 3 ≤ (splitWS query).length ∧ (splitWS query).length ≤ 15 then 0.10
      else if (splitWS query).length ≥ 2 then 0.05
      else 0))
    0.98

/-- `IntentClassifier._determine_sources`: intent-based routing (replacing,
not extending), the all-sources fallback only below confidence 0.3,
explicit sources and entity-implied sources prepended, then order-preserving
deduplication. -/
def determineSources (detectedSources : List String) (intent : IntentType)
    (ents : Entities) (confidence : ℚ) : List String :=
  let sources : List String :=
    match intent with
    | .tutorial => ["github", "devto"]
    | .code_search => ["github", "devto"]
    | .discussion => ["reddit", "hackernews"]
    | .news => ["hackernews", "reddit", "devto"]
    | .price_check => ["crypto", "stocks"]
    | .documentation => ["github", "devto"]
    | .gaming => ["ign", "pcgamer"]
    | .general =>
      if confidence < 0.3 then
        ["github", "reddit", "hackernews", "devto", "stocks", "crypto", "ign", "pcgamer"]
      else ["github", "devto", "hackernews"]
  let sources := detectedSources.foldl
    (fun acc ex => if ex ∈ acc then acc else ex :: acc) sources
  let sources :=
    if !ents.cryptocurrencies.isEmpty ∧ "crypto" ∉ sources then "crypto" :: sources
    else sources
  let sources :=
    if !ents.stocks.isEmpty ∧ "stocks" ∉ sources then "stocks" :: sources
    else sources
  (sources.foldl
    (fun (st : List String × List String) s =>
      if s ∈ st.2 then st else (st.1 ++ [s], s :: st.2))
    ([], [])).1

/-! ## GitHubSource (`sources/github_source.py`) -/

/-- The strict GitHub query built by `GitHubSource.search`:
`f"{query} stars:>{min_stars}"` plus an optional language filter and the
date filter string (`_build_date_filter`'s output, passed in because it
depends on the wall clock). -/
def githubStrictQuery (q : String) (language : Option String) (dateFilter : String)
    (minStars : ℕ) : String :=
  q ++ " stars:>" ++ toString minStars ++
    (match language with | some l => " language:" ++ l | none => "") ++ dateFilter

/-- The relaxed retry query of `GitHubSource.search`:
`f"{query} stars:>0"` plus the same language and date filters. -/
def githubFallbackQuery (q : String) (language : Option String) (dateFilter : String) :
    String :=
  q ++ " stars:>0" ++
    (match language with | some l => " language:" ++ l | none => "") ++ dateFilter

/-- One iteration of the progressive-refinement merge loop in
`GitHubSource.search`. -/
def mergeStep (st : List SearchResult × List String) (r : SearchResult) :
    List SearchResult × List String :=
  if r.url ∈ st.2 then st else (st.1 ++ [r], st.2 ++ [r.url])

/-- The merge loop of the progressive refinement in `GitHubSource.search`:
`seen_urls = {r.url for r in results}` then fallback results are appended
only when their URL is unseen (strict results keep priority). -/
def githubMerge (strict fallback : List SearchResult) : List SearchResult :=
  (fallback.foldl mergeStep (strict, strict.map (·.url))).1

/-- `GitHubSource.search` with the network call abstracted as `fetch`
(the per-query result list of `_sync_search`).  Returns the list of issued
API queries alongside the final results: the strict query always, and —
when the strict pass returned fewer than 5 results and the threshold is
positive — exactly one relaxed retry, whose results are merged in
(deduplicating by URL, strict first), re-sorted by native score, and
truncated to `limit`.  The function is not recursive: at most one retry
can ever be issued. -/
def githubSearch (fetch : String → List SearchResult) (q : String)
    (language : Option String) (dateFilter : String) (limit : ℕ) (minStars : ℕ := 5) :
    List String × List SearchResult :=
  let sq := githubStrictQuery q language dateFilter minStars
  let results := fetch sq
  if results.length < 5 ∧ minStars > 0 then
    let fq := githubFallbackQuery q language dateFilter
    let merged := githubMerge results (fetch fq)
    ([sq, fq], (List.insertionSort scoreGe merged).take limit)
  else
    ([sq], results.take limit)

/-! ## SearchCacheService (`search_cache_service.py`) -/

/-- A row of the `search_cache` table (`CacheEntry` of the spec):
`expires_at` is an ISO timestamp, compared here as an integer since ISO
timestamps compare in timestamp order. -/
structure CacheEntry where
  queryHash : String
  results : List SearchResult
  expiresAt : ℤ
  hitCount : ℕ := 0
deriving DecidableEq

/-- `SearchCacheService.get_cached_results`: `None` when the cache is
disabled; a backend lookup failure is caught (`except`) and also yields
`None`; otherwise the store is queried for the first entry with the given
query hash whose `expires_at` is `≥ now` (`.gte('expires_at', ...)` —
expired rows are filtered out even though they are still stored).
`lookupFails` models an exception raised by the backend query. -/
def getCachedResults (enabled : Bool) (lookupFails : Bool) (store : List CacheEntry)
    (queryHash : String) (now : ℤ) : Option (List SearchResult) :=
  if !enabled then none
  else if lookupFails then none
  else
    match store.find? (fun e => e.queryHash == queryHash && decide (now ≤ e.expiresAt)) with
    | some e => some e.results
    | none => none

/-! ## General helper lemmas -/

theorem char_toNat_ofNat_valid (n : ℕ) (h : n.isValidChar) : (Char.ofNat n).toNat = n := by
  simp only [Char.ofNat, dif_pos h, Char.ofNatAux, Char.toNat]
  rfl

theorem toLower_idem (c : Char) : Char.toLower (Char.toLower c) = Char.toLower c := by
  simp only [Char.toLower]
  split
  · next h =>
    have hv : (c.toNat + 32).isValidChar := Or.inl (by omega)
    rw [char_toNat_ofNat_valid _ hv]
    split
    · next h2 => omega
    · rfl
  · rfl

theorem toLowerStr_idem (s : List Char) : toLowerStr (toLowerStr s) = toLowerStr s := by
  simp only [toLowerStr, List.map_map]
  exact List.map_congr_left (fun c _ => toLower_idem c)

theorem find?_eq_head?_filter {α : Type} (p : α → Bool) (l : List α) :
    l.find? p = (l.filter p).head? := by
  induction l with
  | nil => rfl
  | cons a t ih =>
    cases h : p a with
    | true => rw [List.find?_cons_of_pos _ h, List.filter_cons_of_pos h]; rfl
    | false =>
      rw [List.find?_cons_of_neg _ (by simp [h]), List.filter_cons_of_neg (by simp [h]), ih]

/-! ## C10: neutral default score for empty / contentless queries -/

/-- C10.  For every query that is all whitespace (so that
`search_query.strip()` is empty) or whose parse yields no phrases and no
terms, `calculate_relevance` returns exactly 50.0, regardless of the
candidate and metadata. -/
theorem neutral_score_for_empty_query (title body : List Char) (tags : List (List Char))
    (query : List Char) (md : Option ScoreMetadata)
    (h : query.all isWS = true ∨ ((parseQuery query).1 = [] ∧ (parseQuery query).2 = [])) :
    calculateRelevance title body tags query md = 50 := by
  have ht : calculateRelevanceTenths title body tags query md = 500 := by
    unfold calculateRelevanceTenths
    rcases h with h | h
    · rw [if_pos h]
    · by_cases hw : query.all isWS
      · rw [if_pos hw]
      · rw [if_neg hw, if_pos]
        simp [h.1, h.2]
  rw [calculateRelevance, ht]
  norm_num

/-- Witness for C10: the query "find the" consists of stop words only, and
an all-whitespace query strips to nothing; both score exactly 50. -/
theorem neutral_score_for_empty_query_witness :
    calculateRelevance (chars "Hello World") (chars "body") [] (chars "find the") none = 50 ∧
      calculateRelevance (chars "Hello World") (chars "body") [] (chars "   ") none = 50 :=
  ⟨neutral_score_for_empty_query _ _ _ _ _ (Or.inr ⟨rfl, rfl⟩),
   neutral_score_for_empty_query _ _ _ _ _ (Or.inl rfl)⟩

/-! ## C9: cache misses on expiry and on backend outage -/

/-- C9.  `get_cached_results` returns `None` whenever the cache is
disabled, or the backend lookup raises, or every stored entry for the
requested query hash has expired (TTL elapsed) — even though expired
entries are still physically stored.  In all three situations the caller
sees an ordinary cache miss, never an error. -/
theorem cache_get_miss (enabled lookupFails : Bool) (store : List CacheEntry)
    (queryHash : String) (now : ℤ)
    (h : enabled = false ∨ lookupFails = true ∨
      ∀ e ∈ store, e.queryHash = queryHash → e.expiresAt < now) :
    getCachedResults enabled lookupFails store queryHash now = none := by
  rcases h with h | h | h
  · simp [getCachedResults, h]
  · cases enabled <;> simp [getCachedResults, h]
  · cases enabled with
    | false => simp [getCachedResults]
    | true =>
      cases lookupFails with
      | true => simp [getCachedResults]
      | false =>
        have hfind :
            store.find? (fun e => e.queryHash == queryHash && decide (now ≤ e.expiresAt)) =
              none := by
          rw [List.find?_eq_none]
          intro e he
          by_cases hq : e.queryHash = queryHash
          · have := h e he hq
            simp [hq, not_le.mpr this]
          · simp [hq]
        simp [getCachedResults, hfind]

/-- Witness for C9: an entry expiring at time 5, queried at time 10, is
still stored but `get` returns `None`. -/
theorem cache_get_miss_witness :
    getCachedResults true false [{ queryHash := "abc", results := [], expiresAt := 5 }]
      "abc" 10 = none :=
  cache_get_miss true false _ "abc" 10 (Or.inr (Or.inr (by decide)))

/-! ## C8: relevance scores always lie in [0, 100] -/

/-- C8.  For every title, body, tag list, query and metadata, the score
returned by `calculate_relevance` lies in the closed interval [0, 100]:
every additive contribution is non-negative (the tenths-of-a-point value is
a natural number) and the final value is capped at 100. -/
theorem relevance_score_in_range (title body : List Char) (tags : List (List Char))
    (query : List Char) (md : Option ScoreMetadata) :
    0 ≤ calculateRelevance title body tags query md ∧
      calculateRelevance title body tags query md ≤ 100 := by
  constructor
  · unfold calculateRelevance
    positivity
  · have ht : calculateRelevanceTenths title body tags query md ≤ 1000 := by
      unfold calculateRelevanceTenths
      split
      · omega
      · split
        · omega
        · exact min_le_right _ _
    unfold calculateRelevance
    rw [div_le_iff₀ (by norm_num : (0:ℚ) < 10)]
    calc (calculateRelevanceTenths title body tags query md : ℚ)
        ≤ (1000 : ℚ) := by exact_mod_cast ht
      _ = 100 * 10 := by norm_num

/-! ## C6: classifier confidence always lies in [0, 0.98] -/

/-- C6.  For every combination of detected sources, intent type, entities,
keywords and query text — in particular for the values the classifier
derives from any input string, including the empty string —
`_calculate_confidence` returns a value in [0, 0.98]. -/
theorem confidence_in_range (detectedSources : List String) (intent : IntentType)
    (ents : Entities) (keywords : List (List Char)) (query : List Char) :
    0 ≤ calculateConfidence detectedSources intent ents keywords query ∧
      calculateConfidence detectedSources intent ents keywords query ≤ 0.98 := by
  have h1 : (0:ℚ) ≤ if !detectedSources.isEmpty then (0.30:ℚ) else 0 := by
    split <;> norm_num
  have h2 : (0:ℚ) ≤
      if intent ≠ IntentType.general then
        if intent = IntentType.price_check ∨ intent = IntentType.tutorial then (0.25:ℚ)
        else 0.20
      else 0 := by
    split_ifs <;> norm_num
  have h3 : (0:ℚ) ≤
      if entityCount ents > 0 then min ((entityCount ents : ℚ) * 0.10) 0.30 else 0 := by
    split
    · exact le_min (by positivity) (by norm_num)
    · exact le_refl 0
  have h4 : (0:ℚ) ≤
      if keywords.length ≥ 1 then
        if keywords.length ≥ 3 then (0.10:ℚ) + 0.05 else 0.10
      else 0 := by
    split_ifs <;> norm_num
  have h5 : (0:ℚ) ≤
      if 3 ≤ (splitWS query).length ∧ (splitWS query).length ≤ 15 then (0.10:ℚ)
      else if (splitWS query).length ≥ 2 then 0.05
      else 0 := by
    split_ifs <;> norm_num
  constructor
  · unfold calculateConfidence
    exact le_min (by linarith) (by norm_num)
  · unfold calculateConfidence
    exact min_le_right _ _

/-! ## Orchestrator lemmas -/

/-- Because `SearchResult` carries no `created_at` attribute, the
time-sensitive sort key degenerates to the native score. -/
theorem timeGe_iff_scoreGe (a b : SearchResult) : timeGe a b ↔ scoreGe a b := by
  simp [timeGe, scoreGe, getattrCreatedAt]

instance : IsTotal SearchResult scoreGe := ⟨fun a b => le_total b.score a.score⟩

instance : IsTrans SearchResult scoreGe := ⟨fun _ _ _ h1 h2 => le_trans h2 h1⟩

instance : IsTotal SearchResult timeGe :=
  ⟨fun a b => by
    rcases le_total b.score a.score with h | h
    · exact Or.inl ((timeGe_iff_scoreGe a b).mpr h)
    · exact Or.inr ((timeGe_iff_scoreGe b a).mpr h)⟩

instance : IsTrans SearchResult timeGe :=
  ⟨fun a b c h1 h2 => (timeGe_iff_scoreGe a c).mpr
    (le_trans ((timeGe_iff_scoreGe b c).mp h2) ((timeGe_iff_scoreGe a b).mp h1))⟩

theorem dedupFold_nodup (l : List SearchResult) :
    ∀ (acc : List SearchResult) (seen : List String),
      (∀ r ∈ acc, r.url ∈ seen) → (acc.map (·.url)).Nodup →
      ((List.foldl dedupStep (acc, seen) l).1.map (·.url)).Nodup := by
  induction l with
  | nil => intro acc seen _ h2; simpa using h2
  | cons r t ih =>
    intro acc seen h1 h2
    rw [List.foldl_cons]
    by_cases hr : r.url ∈ seen
    · rw [show dedupStep (acc, seen) r = (acc, seen) by rw [dedupStep, if_pos hr]]
      exact ih acc seen h1 h2
    · rw [show dedupStep (acc, seen) r = (acc ++ [r], r.url :: seen) by
        rw [dedupStep, if_neg hr]]
      apply ih
      · intro x hx
        rcases List.mem_append.mp hx with hx | hx
        · exact List.mem_cons_of_mem _ (h1 x hx)
        · simp only [List.mem_singleton] at hx
          subst hx
          exact List.mem_cons_self _ _
      · rw [List.map_append]
        refine List.Nodup.append h2 (by simp) ?_
        intro u hu hu'
        simp only [List.map_cons, List.map_nil, List.mem_singleton] at hu'
        subst hu'
        rcases List.mem_map.mp hu with ⟨x, hx, hxu⟩
        exact hr (hxu ▸ h1 x hx)
  
theorem dedupFold_sublist (l : List SearchResult) :
    ∀ (acc : List SearchResult) (seen : List String),
      (List.foldl dedupStep (acc, seen) l).1.Sublist (acc ++ l) := by
  induction l with
  | nil => intro acc seen; simp
  | cons r t ih =>
    intro acc seen
    rw [List.foldl_cons]
    by_cases hr : r.url ∈ seen
    · rw [show dedupStep (acc, seen) r = (acc, seen) by rw [dedupStep, if_pos hr]]
      exact (ih acc seen).trans
        (List.Sublist.append_left (List.sublist_cons_self r t) acc)
    · rw [show dedupStep (acc, seen) r = (acc ++ [r], r.url :: seen) by
        rw [dedupStep, if_neg hr]]
      have := ih (acc ++ [r]) (r.url :: seen)
      rwa [List.append_assoc, List.singleton_append] at this

theorem dedupFold_eq_self (l : List SearchResult) :
    ∀ (acc : List SearchResult) (seen : List String),
      (∀ r ∈ l, r.url ∉ seen) → (l.map (·.url)).Nodup →
      (List.foldl dedupStep (acc, seen) l).1 = acc ++ l := by
  induction l with
  | nil => intro acc seen _ _; simp
  | cons r t ih =>
    intro acc seen h1 h2
    have hr : r.url ∉ seen := h1 r (List.mem_cons_self _ _)
    rw [List.foldl_cons,
      show dedupStep (acc, seen) r = (acc ++ [r], r.url :: seen) by
        rw [dedupStep, if_neg hr]]
    simp only [List.map_cons, List.nodup_cons] at h2
    have := ih (acc ++ [r]) (r.url :: seen)
      (by
        intro x hx
        simp only [List.mem_cons]
        push_neg
        refine ⟨?_, h1 x (List.mem_cons_of_mem _ hx)⟩
        intro hxr
        exact h2.1 (hxr ▸ List.mem_map_of_mem (·.url) hx))
      h2.2
    rw [this, List.append_assoc, List.singleton_append]

theorem dedupByUrl_nodup (l : List SearchResult) :
    ((dedupByUrl l).map (·.url)).Nodup :=
  dedupFold_nodup l [] [] (by simp) (by simp)

theorem dedupByUrl_sublist (l : List SearchResult) : (dedupByUrl l).Sublist l := by
  simpa using dedupFold_sublist l [] []

theorem dedupByUrl_eq_self (l : List SearchResult) (h : (l.map (·.url)).Nodup) :
    dedupByUrl l = l := by
  rw [dedupByUrl, dedupFold_eq_self l [] [] (by simp) h]
  simp

/-! ## C2: no two results of a response share a URL -/

/-- C2 (amended).  Within one orchestrator response, no two results share
the **same URL string**: the deduplication pass keys on the exact
`result.url` value, and this survives the final truncation. -/
theorem search_results_url_nodup (timeSensitive : Bool) (gathered : List SearchResult) :
    ((searchResults timeSensitive gathered).map (·.url)).Nodup := by
  unfold searchResults
  rw [List.map_take]
  exact (List.take_sublist _ _).nodup (dedupByUrl_nodup (sortResults timeSensitive gathered))

/-- C2 counterexample.  Two results whose URLs differ only in the query
string both survive deduplication, so the response contains two results
with the same *normalized* URL (scheme+host+path, query stripped): the
claim as stated — no two results share a normalized URL — is false of the
code, which deduplicates by the exact URL only. -/
theorem search_results_share_normalized_url :
    ¬ List.Pairwise
        (fun a b : SearchResult => specNormalizedUrl a.url ≠ specNormalizedUrl b.url)
        (searchResults false
          [{ title := "t1", url := "https://ex.com/p?a=1", source := "s", score := 2 },
           { title := "t2", url := "https://ex.com/p?a=2", source := "s", score := 1 }]) := by
  decide

/-! ## C3: result ordering -/

/-- C3 (amended).  The orchestrator's returned results are sorted by
**native score** (stars/upvotes/points) descending — not by
`relevanceScore`.  For time-sensitive intents the sort key is
`(getattr(x, 'created_at', datetime.min), score)` descending, but since
`SearchResult` has no `created_at` attribute the date component is the
constant default, so the time-sensitive order also reduces to native score
descending (second conjunct).  Ties keep the fan-out concatenation order
(the sort is stable), which follows `intent.sources` order, not source
registration order. -/
theorem search_results_sorted_by_native_score (timeSensitive : Bool)
    (gathered : List SearchResult) :
    List.Sorted scoreGe (searchResults timeSensitive gathered) ∧
      (∀ a b : SearchResult, timeGe a b ↔ scoreGe a b) := by
  refine ⟨?_, timeGe_iff_scoreGe⟩
  have hsorted : List.Sorted scoreGe (sortResults timeSensitive gathered) := by
    unfold sortResults
    split
    · exact (List.sorted_insertionSort timeGe gathered).imp
        (fun h => (timeGe_iff_scoreGe _ _).mp h)
    · exact List.sorted_insertionSort scoreGe gathered
  exact List.Pairwise.sublist ((List.take_sublist _ _).trans (dedupByUrl_sublist _)) hsorted

/-- C3 counterexample.  A result with relevance score 90 but 1 star is
placed *after* a result with relevance score 10 but 99 stars, so the
response is not sorted by relevanceScore descending as the claim states. -/
theorem search_results_not_sorted_by_relevance :
    ¬ List.Sorted
        (fun a b : SearchResult => b.relevanceScoreTenths ≤ a.relevanceScoreTenths)
        (searchResults false
          [{ title := "relevant", url := "u1", source := "github", score := 1,
             relevanceScoreTenths := 900 },
           { title := "popular", url := "u2", source := "reddit", score := 99,
             relevanceScoreTenths := 100 }]) := by
  decide

/-! ## C4: per-source failure isolation -/

/-- C4.  When one selected source fails (its task resolves to an exception)
and another succeeds with 3 results with pairwise-distinct URLs, the
response contains exactly the successful source's 3 results (as a
permutation — reordered only by the ranking sort), the errors list is
exactly one entry naming the failed source, and `total_found = 3`.  The
failure never escapes: `searchResponse` always returns a normal response. -/
theorem search_isolates_source_failure (timeSensitive : Bool)
    (failSrc failMsg okSrc : String) (r1 r2 r3 : SearchResult)
    (hnd : ([r1, r2, r3].map (·.url)).Nodup) :
    (searchResponse timeSensitive
        [(failSrc, .error failMsg), (okSrc, .ok [r1, r2, r3])]).results.Perm [r1, r2, r3] ∧
      (searchResponse timeSensitive
        [(failSrc, .error failMsg), (okSrc, .ok [r1, r2, r3])]).errors =
        [errorMsg failSrc failMsg] ∧
      (searchResponse timeSensitive
        [(failSrc, .error failMsg), (okSrc, .ok [r1, r2, r3])]).totalFound = 3 := by
  have hc : collectOutcomes [(failSrc, .error failMsg), (okSrc, .ok [r1, r2, r3])] =
      ([r1, r2, r3], [errorMsg failSrc failMsg]) := rfl
  have hsortperm : (sortResults timeSensitive [r1, r2, r3]).Perm [r1, r2, r3] := by
    unfold sortResults
    split <;> exact List.perm_insertionSort _ _
  have hnodup_sorted : ((sortResults timeSensitive [r1, r2, r3]).map (·.url)).Nodup :=
    ((hsortperm.map (·.url)).nodup_iff).mpr hnd
  have hlen : (sortResults timeSensitive [r1, r2, r3]).length = 3 := hsortperm.length_eq
  have hfinal : searchResults timeSensitive [r1, r2, r3] =
      sortResults timeSensitive [r1, r2, r3] := by
    rw [searchResults, dedupByUrl_eq_self _ hnodup_sorted, List.take_of_length_le (by omega)]
  refine ⟨?_, ?_, ?_⟩
  · show (searchResults timeSensitive
      (collectOutcomes [(failSrc, .error failMsg), (okSrc, .ok [r1, r2, r3])]).1).Perm _
    rw [hc, hfinal]
    exact hsortperm
  · show (collectOutcomes [(failSrc, .error failMsg), (okSrc, .ok [r1, r2, r3])]).2 = _
    rw [hc]
  · show (searchResults timeSensitive
      (collectOutcomes [(failSrc, .error failMsg), (okSrc, .ok [r1, r2, r3])]).1).length = 3
    rw [hc, hfinal, hlen]

/-- Witness for C4: GitHub times out, Reddit returns 3 results. -/
theorem search_isolates_source_failure_witness :
    (searchResponse false
        [("github", .error "Timeout"),
         ("reddit", .ok
            [{ title := "a", url := "https://r/1", source := "reddit", score := 3 },
             { title := "b", url := "https://r/2", source := "reddit", score := 5 },
             { title := "c", url := "https://r/3", source := "reddit", score := 4 }])]).results.Perm
        [{ title := "a", url := "https://r/1", source := "reddit", score := 3 },
         { title := "b", url := "https://r/2", source := "reddit", score := 5 },
         { title := "c", url := "https://r/3", source := "reddit", score := 4 }] ∧
      (searchResponse false
        [("github", .error "Timeout"),
         ("reddit", .ok
            [{ title := "a", url := "https://r/1", source := "reddit", score := 3 },
             { title := "b", url := "https://r/2", source := "reddit", score := 5 },
             { title := "c", url := "https://r/3", source := "reddit", score := 4 }])]).errors =
        [errorMsg "github" "Timeout"] ∧
      (searchResponse false
        [("github", .error "Timeout"),
         ("reddit", .ok
            [{ title := "a", url := "https://r/1", source := "reddit", score := 3 },
             { title := "b", url := "https://r/2", source := "reddit", score := 5 },
             { title := "c", url := "https://r/3", source := "reddit", score := 4 }])]).totalFound =
        3 :=
  search_isolates_source_failure false "github" "Timeout" "reddit" _ _ _ (by decide)

/-! ## C1: explicit single-source markers -/

/-- C1 (amended).  In the V2 orchestrator's `parse_search_intent`, a query
whose explicit-marker matches pick out exactly one source (the filter of
the marker table yields the single entry for `s`) produces exactly the
one-element source list `[s]` — exclusive mode, regardless of which sources
are registered.  (The `IntentClassifier` path does **not** share this
property; see the counterexample.) -/
theorem parse_search_intent_explicit_exclusive (q : List Char) (s : String)
    (registryNames : List String)
    (h : (explicitSourcePatterns.filter
        (fun sp => sp.2.any (fun pat => containsSub pat q))).map Prod.fst = [s]) :
    parseSearchIntentSources q registryNames = [s] := by
  have hd : detectExplicitSource q = some s := by
    unfold detectExplicitSource
    rw [find?_eq_head?_filter]
    cases hf : explicitSourcePatterns.filter
        (fun sp => sp.2.any (fun pat => containsSub pat q)) with
    | nil => rw [hf] at h; simp at h
    | cons x t =>
      rw [hf] at h
      simp only [List.map_cons, List.cons.injEq] at h
      have ht : t = [] := List.map_eq_nil_iff.mp h.2
      rw [ht]
      simp [h.1]
  unfold parseSearchIntentSources
  rw [hd]

/-- Witness for C1's amended theorem: "python repos on github" matches only
the github marker ("on github") and yields exactly `["github"]`. -/
theorem parse_search_intent_explicit_exclusive_witness :
    parseSearchIntentSources (chars "python repos on github")
      ["github", "reddit", "hackernews", "devto", "stocks", "crypto", "ign", "pcgamer"] =
      ["github"] :=
  parse_search_intent_explicit_exclusive _ "github" _ (by decide)

/-- C1 counterexample.  The `IntentClassifier` path violates the claim:
for the query "python repos on github" the classifier detects the explicit
source `github` (pattern `\b(on|from|in|at)\s+github\b`) and the intent
`code_search` (pattern `\b(repo|repos|...)\b` on "repos"; no other intent
pattern matches), and `_determine_sources` then *merges* the explicit
source into the intent routing table's `['github', 'devto']` instead of
replacing it, so the produced intent's sources list is not `["github"]`. -/
theorem intent_classifier_sources_not_exclusive :
    determineSources ["github"] IntentType.code_search
        { languages := [chars "python"] } 0.85 ≠ ["github"] := by
  decide

/-! ## C7: GitHub progressive refinement -/

theorem mergeFold_eq (l : List SearchResult) :
    ∀ (acc : List SearchResult) (seen : List String),
      ((l.filter (fun r => decide (r.url ∉ seen))).map (·.url)).Nodup →
      (l.foldl mergeStep (acc, seen)).1 =
        acc ++ l.filter (fun r => decide (r.url ∉ seen)) := by
  induction l with
  | nil => intro acc seen _; simp
  | cons r t ih =>
    intro acc seen h
    rw [List.foldl_cons]
    by_cases hr : r.url ∈ seen
    · rw [show mergeStep (acc, seen) r = (acc, seen) by rw [mergeStep, if_pos hr],
        List.filter_cons_of_neg (by simpa using hr)]
      refine ih acc seen ?_
      rwa [List.filter_cons_of_neg (by simpa using hr)] at h
    · rw [show mergeStep (acc, seen) r = (acc ++ [r], seen ++ [r.url]) by
        rw [mergeStep, if_neg hr],
        List.filter_cons_of_pos (by simpa using hr)]
      rw [List.filter_cons_of_pos (by simpa using hr), List.map_cons,
        List.nodup_cons] at h
      have hcongr : t.filter (fun x => decide (x.url ∉ seen ++ [r.url])) =
          t.filter (fun x => decide (x.url ∉ seen)) := by
        apply List.filter_congr
        intro x hx
        by_cases hxs : x.url ∈ seen
        · simp [hxs]
        · have hxr : x.url ≠ r.url := by
            intro hEq
            exact h.1 (hEq ▸ List.mem_map_of_mem (·.url)
              (List.mem_filter.mpr ⟨hx, by simpa using hxs⟩))
          simp [hxs, hxr]
      rw [ih (acc ++ [r]) (seen ++ [r.url]) (by rw [hcongr]; exact h.2), hcongr,
        List.append_assoc, List.singleton_append]

theorem githubMerge_eq (strict fb : List SearchResult)
    (h : ((fb.filter (fun r => decide (r.url ∉ strict.map (·.url)))).map (·.url)).Nodup) :
    githubMerge strict fb =
      strict ++ fb.filter (fun r => decide (r.url ∉ strict.map (·.url))) := by
  rw [githubMerge]
  exact mergeFold_eq fb strict (strict.map (·.url)) h

/-- C7.  A GitHub search whose strict pass (default threshold
`stars:>5`) returns only 2 results issues exactly one relaxed retry — the
same query with the threshold relaxed to its minimum (`stars:>0`) — and no
more (the issued-query list is exactly the two queries; `githubSearch` is
not recursive).  The retry's 8 results are merged into the strict set,
deduplicating by URL with the strict occurrence kept: 3 of the 8 duplicate
a strict URL, the other 5 are fresh and pairwise distinct, so the source's
merged result set has exactly 7 unique results. -/
theorem github_progressive_refinement (fetch : String → List SearchResult)
    (q : String) (language : Option String) (dateFilter : String) (limit : ℕ)
    (hlim : 7 ≤ limit)
    (hstrictLen : (fetch (githubStrictQuery q language dateFilter 5)).length = 2)
    (hfbLen : (fetch (githubFallbackQuery q language dateFilter)).length = 8)
    (hdup : ((fetch (githubFallbackQuery q language dateFilter)).filter
        (fun r => decide (r.url ∈
          (fetch (githubStrictQuery q language dateFilter 5)).map (·.url)))).length = 3)
    (hstrictNodup : ((fetch (githubStrictQuery q language dateFilter 5)).map (·.url)).Nodup)
    (hnewNodup : (((fetch (githubFallbackQuery q language dateFilter)).filter
        (fun r => decide (r.url ∉
          (fetch (githubStrictQuery q language dateFilter 5)).map (·.url)))).map
          (·.url)).Nodup) :
    (githubSearch fetch q language dateFilter limit).1 =
        [githubStrictQuery q language dateFilter 5,
         githubFallbackQuery q language dateFilter] ∧
      (githubSearch fetch q language dateFilter limit).2.length = 7 ∧
      ((githubSearch fetch q language dateFilter limit).2.map (·.url)).Nodup := by
  set strict := fetch (githubStrictQuery q language dateFilter 5) with hst
  set fb := fetch (githubFallbackQuery q language dateFilter) with hfb
  have hcond : strict.length < 5 ∧ (5:ℕ) > 0 := ⟨by omega, by omega⟩
  have hnewLen : (fb.filter (fun r => decide (r.url ∉ strict.map (·.url)))).length = 5 := by
    have hsplit := List.length_eq_length_filter_add
      (fun r : SearchResult => decide (r.url ∈ strict.map (·.url))) (l := fb)
    have hpt : (fb.filter (fun r =>
        !(decide (r.url ∈ strict.map (·.url))))) =
        fb.filter (fun r => decide (r.url ∉ strict.map (·.url))) := by
      apply List.filter_congr
      intro x _
      simp only [decide_not]
    rw [hpt] at hsplit
    omega
  have hmerge := githubMerge_eq strict fb hnewNodup
  have hmergeLen : (githubMerge strict fb).length = 7 := by
    rw [hmerge, List.length_append, hstrictLen, hnewLen]
  have hmergeNodup : ((githubMerge strict fb).map (·.url)).Nodup := by
    rw [hmerge, List.map_append]
    refine List.Nodup.append hstrictNodup hnewNodup ?_
    intro u hu hu'
    rcases List.mem_map.mp hu' with ⟨x, hx, hxu⟩
    have := (List.mem_filter.mp hx).2
    rw [hxu] at this
    simp only [decide_eq_true_eq] at this
    exact this hu
  have hsortPerm := List.perm_insertionSort scoreGe (githubMerge strict fb)
  have hsortLen : (List.insertionSort scoreGe (githubMerge strict fb)).length = 7 :=
    hsortPerm.length_eq.trans hmergeLen
  have hsortNodup :
      ((List.insertionSort scoreGe (githubMerge strict fb)).map (·.url)).Nodup :=
    ((hsortPerm.map (·.url)).nodup_iff).mpr hmergeNodup
  have hgs : githubSearch fetch q language dateFilter limit =
      ([githubStrictQuery q language dateFilter 5,
        githubFallbackQuery q language dateFilter],
       (List.insertionSort scoreGe (githubMerge strict fb)).take limit) := by
    rw [githubSearch, if_pos hcond]
  rw [hgs]
  refine ⟨rfl, ?_, ?_⟩
  · rw [List.length_take, hsortLen]
    omega
  · rw [List.map_take]
    exact (List.take_sublist _ _).nodup hsortNodup

/-- Witness for C7: strict pass returns 2 repos, relaxed pass returns 8 of
which 3 share a URL with the strict set; the merged set has exactly 7. -/
theorem github_progressive_refinement_witness :
    (githubSearch
        (fun s =>
          if s = "frogger stars:>5" then
            [{ title := "s1", url := "u1", source := "github", score := 9 },
             { title := "s2", url := "u2", source := "github", score := 8 }]
          else
            [{ title := "f1", url := "u1", source := "github", score := 7 },
             { title := "f2", url := "u1", source := "github", score := 6 },
             { title := "f3", url := "u2", source := "github", score := 5 },
             { title := "f4", url := "v1", source := "github", score := 4 },
             { title := "f5", url := "v2", source := "github", score := 3 },
             { title := "f6", url := "v3", source := "github", score := 2 },
             { title := "f7", url := "v4", source := "github", score := 1 },
             { title := "f8", url := "v5", source := "github", score := 0 }])
        "frogger" none "" 15).1 = ["frogger stars:>5", "frogger stars:>0"] ∧
      (githubSearch
        (fun s =>
          if s = "frogger stars:>5" then
            [{ title := "s1", url := "u1", source := "github", score := 9 },
             { title := "s2", url := "u2", source := "github", score := 8 }]
          else
            [{ title := "f1", url := "u1", source := "github", score := 7 },
             { title := "f2", url := "u1", source := "github", score := 6 },
             { title := "f3", url := "u2", source := "github", score := 5 },
             { title := "f4", url := "v1", source := "github", score := 4 },
             { title := "f5", url := "v2", source := "github", score := 3 },
             { title := "f6", url := "v3", source := "github", score := 2 },
             { title := "f7", url := "v4", source := "github", score := 1 },
             { title := "f8", url := "v5", source := "github", score := 0 }])
        "frogger" none "" 15).2.length = 7 := by
  have h := github_progressive_refinement
    (fun s =>
      if s = "frogger stars:>5" then
        [{ title := "s1", url := "u1", source := "github", score := 9 },
         { title := "s2", url := "u2", source := "github", score := 8 }]
      else
        [{ title := "f1", url := "u1", source := "github", score := 7 },
         { title := "f2", url := "u1", source := "github", score := 6 },
         { title := "f3", url := "u2", source := "github", score := 5 },
         { title := "f4", url := "v1", source := "github", score := 4 },
         { title := "f5", url := "v2", source := "github", score := 3 },
         { title := "f6", url := "v3", source := "github", score := 2 },
         { title := "f7", url := "v4", source := "github", score := 1 },
         { title := "f8", url := "v5", source := "github", score := 0 }])
    "frogger" none "" 15 (by decide) (by decide) (by decide) (by decide) (by decide)
    (by decide)
  refine ⟨?_, h.2.1⟩
  rw [h.1]
  rfl

/-! ## C5: monotonicity machinery for the scorer

Appending `' ' :: p` to a title can only preserve or add word-boundary term
matches (terms contain no whitespace, so no match can span the junction,
and the inserted space keeps the boundary at the old end of the title), and
it keeps every phrase's title containment while the appended phrase itself
becomes a suffix of the title. -/

theorem scanAux_fuel (t : List Char) :
    ∀ (n f : ℕ) (w : Bool) (s : List Char), s.length ≤ n → s.length ≤ f →
      scanAux t f w s = scanAux t s.length w s := by
  intro n
  induction n with
  | zero =>
    intro f w s hn _
    have hnil : s = [] := List.eq_nil_of_length_eq_zero (Nat.le_zero.mp hn)
    subst hnil
    cases f <;> rfl
  | succ n ihn =>
    intro f w s hn hf
    cases s with
    | nil => cases f <;> rfl
    | cons c rest =>
      cases f with
      | zero => simp at hf
      | succ f =>
        simp only [List.length_cons] at hn hf ⊢
        simp only [scanAux]
        by_cases hm : matchHere t w (c :: rest) = true
        · rw [if_pos hm, if_pos hm]
          have ht : 1 ≤ t.length := by
            rw [matchHere] at hm
            cases t with
            | nil => simp at hm
            | cons a b => simp
          have hd : ((c :: rest).drop t.length).length ≤ rest.length := by
            rw [List.length_drop]
            simp only [List.length_cons]
            omega
          rw [ihn f (wlast t) _ (by omega) (by omega),
              ihn rest.length (wlast t) _ (by omega) (by omega)]
        · rw [if_neg hm, if_neg hm]
          rw [ihn f (wordish c) rest (by omega) (by omega),
              ihn rest.length (wordish c) rest (by omega) (by omega)]

/-- One-step unfolding of the scan at its canonical fuel. -/
theorem scanFromW_cons (t : List Char) (w : Bool) (c : Char) (rest : List Char) :
    scanFromW t w (c :: rest) =
      if matchHere t w (c :: rest) then
        1 + scanFromW t (wlast t) ((c :: rest).drop t.length)
      else scanFromW t (wordish c) rest := by
  rw [scanFromW]
  simp only [List.length_cons, scanAux]
  by_cases hm : matchHere t w (c :: rest) = true
  · rw [if_pos hm, if_pos hm]
    have ht : 1 ≤ t.length := by
      rw [matchHere] at hm
      cases t with
      | nil => simp at hm
      | cons a b => simp
    have hd : ((c :: rest).drop t.length).length ≤ rest.length := by
      rw [List.length_drop]
      simp only [List.length_cons]
      omega
    rw [scanFromW, scanAux_fuel t rest.length rest.length (wlast t) _ hd hd]
  · rw [if_neg hm, if_neg hm]
    rfl

theorem isPrefixOf_append_sep (t s p : List Char) (hsp : ' ' ∉ t) :
    t.isPrefixOf (s ++ ' ' :: p) = t.isPrefixOf s := by
  by_cases h : t <+: s
  · rw [List.isPrefixOf_iff_prefix.mpr (h.trans (List.prefix_append s (' ' :: p))),
      List.isPrefixOf_iff_prefix.mpr h]
  · have h2 : ¬ t <+: (s ++ ' ' :: p) := by
      intro hc
      rcases le_or_lt t.length s.length with hle | hlt
      · apply h
        have := List.prefix_iff_eq_take.mp hc
        rw [List.take_append_eq_append_take,
          show t.length - s.length = 0 by omega, List.take_zero, List.append_nil] at this
        rw [this]
        exact List.take_prefix _ _
      · apply hsp
        have := List.prefix_iff_eq_take.mp hc
        rw [List.take_append_eq_append_take, List.take_of_length_le (by omega)] at this
        have hk : t.length - s.length = (t.length - s.length - 1) + 1 := by omega
        rw [hk, List.take_succ_cons] at this
        rw [this]
        exact List.mem_append_right _ (List.mem_cons_self _ _)
    rw [Bool.eq_iff_iff]
    constructor
    · intro hb
      exact absurd (List.isPrefixOf_iff_prefix.mp hb) h2
    · intro hb
      exact absurd (List.isPrefixOf_iff_prefix.mp hb) h
  
theorem whead_drop_append_sep (s p : List Char) (n : ℕ) (hn : n ≤ s.length) :
    whead ((s ++ ' ' :: p).drop n) = whead (s.drop n) := by
  rw [List.drop_append_eq_append_drop, show n - s.length = 0 by omega, List.drop_zero]
  cases hd : s.drop n with
  | nil => rw [List.nil_append]; rfl
  | cons a l => rfl

theorem matchHere_append_sep (t : List Char) (hsp : ' ' ∉ t) (w : Bool) (s p : List Char) :
    matchHere t w (s ++ ' ' :: p) = matchHere t w s := by
  rw [matchHere, matchHere, isPrefixOf_append_sep t s p hsp]
  by_cases hpre : t.isPrefixOf s = true
  · have hlen : t.length ≤ s.length := (List.isPrefixOf_iff_prefix.mp hpre).length_le
    rw [whead_drop_append_sep s p t.length hlen]
  · simp only [Bool.not_eq_true] at hpre
    rw [hpre]
    simp

theorem scanFromW_append_mono (t : List Char) (hsp : ' ' ∉ t) :
    ∀ (n : ℕ) (s : List Char) (w : Bool) (p : List Char), s.length ≤ n →
      scanFromW t w s ≤ scanFromW t w (s ++ ' ' :: p) := by
  intro n
  induction n with
  | zero =>
    intro s w p hs
    have hnil : s = [] := List.eq_nil_of_length_eq_zero (Nat.le_zero.mp hs)
    subst hnil
    exact Nat.zero_le _
  | succ n ihn =>
    intro s w p hs
    cases s with
    | nil => exact Nat.zero_le _
    | cons c rest =>
      have hmEq : matchHere t w (c :: (rest ++ ' ' :: p)) = matchHere t w (c :: rest) := by
        rw [← List.cons_append]
        exact matchHere_append_sep t hsp w (c :: rest) p
      rw [List.cons_append, scanFromW_cons, scanFromW_cons, hmEq]
      by_cases hm : matchHere t w (c :: rest) = true
      · rw [if_pos hm, if_pos hm]
        have hparts : (!t.isEmpty) = true ∧ t.isPrefixOf (c :: rest) = true := by
          rw [matchHere] at hm
          simp only [Bool.and_eq_true] at hm
          exact ⟨hm.1.1.1, hm.1.1.2⟩
        have ht1 : 1 ≤ t.length := by
          cases t with
          | nil => simp at hparts
          | cons a b => simp
        have ht2 : t.length ≤ (c :: rest).length :=
          (List.isPrefixOf_iff_prefix.mp hparts.2).length_le
        have hdrop : (c :: (rest ++ ' ' :: p)).drop t.length =
            ((c :: rest).drop t.length) ++ ' ' :: p := by
          rw [← List.cons_append, List.drop_append_eq_append_drop,
            show t.length - (c :: rest).length = 0 by omega, List.drop_zero]
        rw [hdrop]
        have hlen2 : ((c :: rest).drop t.length).length ≤ n := by
          rw [List.length_drop]
          simp only [List.length_cons] at hs ⊢
          omega
        exact Nat.add_le_add_left (ihn _ _ _ hlen2) 1
      · rw [if_neg hm, if_neg hm]
        refine ihn rest (wordish c) p ?_
        simp only [List.length_cons] at hs
        omega

theorem scanCount_append_mono (t s p : List Char) (hsp : ' ' ∉ t) :
    scanCount t s ≤ scanCount t (s ++ ' ' :: p) :=
  scanFromW_append_mono t hsp s.length s false p le_rfl

theorem containsSub_spec (n h : List Char) : containsSub n h = true ↔ n <:+: h := by
  induction h with
  | nil =>
    rw [containsSub]
    simp [List.isEmpty_iff]
  | cons c rest ih =>
    rw [containsSub, Bool.or_eq_true, List.isPrefixOf_iff_prefix, ih]
    exact (List.infix_cons_iff).symm

theorem containsSub_append (nd h x : List Char) (hc : containsSub nd h = true) :
    containsSub nd (h ++ x) = true := by
  rw [containsSub_spec] at hc ⊢
  exact hc.trans (List.prefix_append h x).isInfix

theorem isSuffixOf_iff_suffix (l₁ l₂ : List Char) : l₁.isSuffixOf l₂ = true ↔ l₁ <:+ l₂ := by
  rw [List.isSuffixOf, List.isPrefixOf_iff_prefix, List.reverse_prefix]

theorem isSuffixOf_append_cons (tl p : List Char) : p.isSuffixOf (tl ++ ' ' :: p) = true := by
  rw [isSuffixOf_iff_suffix]
  exact ⟨tl ++ [' '], by rw [List.append_assoc, List.singleton_append]⟩

theorem isPrefixOf_append_of (q tl x : List Char) (h : q.isPrefixOf tl = true) :
    q.isPrefixOf (tl ++ x) = true :=
  List.isPrefixOf_iff_prefix.mpr
    ((List.isPrefixOf_iff_prefix.mp h).trans (List.prefix_append tl x))

/-! ### Per-term monotonicity under appending `' ' :: p` to the title -/

theorem titleTermPoints_mono (t tl p : List Char) (hsp : ' ' ∉ t) :
    titleTermPoints t tl ≤ titleTermPoints t (tl ++ ' ' :: p) := by
  unfold titleTermPoints
  have hm := scanCount_append_mono t tl p hsp
  have hstart : matchHere t false (tl ++ ' ' :: p) = matchHere t false tl :=
    matchHere_append_sep t hsp false tl p
  by_cases h0 : scanCount t tl > 0
  · rw [if_pos h0, if_pos (lt_of_lt_of_le h0 hm), hstart]
    by_cases hb : matchHere t false tl = true
    · rw [if_pos hb]; omega
    · rw [if_neg hb]; omega
  · rw [if_neg h0]
    exact Nat.zero_le _

theorem bodyTermPoints_le (t body : List Char) : bodyTermPoints t body ≤ 200 := by
  unfold bodyTermPoints
  split
  · have := min_le_right (scanCount t body - 1) 5
    omega
  · omega

theorem termPoints_mono (t tl body p : List Char) (tags : List (List Char))
    (hsp : ' ' ∉ t) :
    termPoints t tl body tags ≤ termPoints t (tl ++ ' ' :: p) body tags := by
  unfold termPoints
  refine Nat.add_le_add ?_ le_rfl
  by_cases h0 : scanCount t tl > 0
  · rw [if_pos h0, if_pos (lt_of_lt_of_le h0 (scanCount_append_mono t tl p hsp))]
    exact titleTermPoints_mono t tl p hsp
  · rw [if_neg h0]
    by_cases h1 : scanCount t (tl ++ ' ' :: p) > 0
    · rw [if_pos h1]
      have h350 : 350 ≤ titleTermPoints t (tl ++ ' ' :: p) := by
        unfold titleTermPoints
        rw [if_pos h1]
        omega
      split
      · exact le_trans (bodyTermPoints_le t body) (by omega)
      · omega
    · rw [if_neg h1]

theorem termMatched_mono (t tl body p : List Char) (tags : List (List Char))
    (hsp : ' ' ∉ t) (h : termMatched t tl body tags = true) :
    termMatched t (tl ++ ' ' :: p) body tags = true := by
  unfold termMatched at h ⊢
  simp only [Bool.or_eq_true] at h ⊢
  rcases h with (h | h) | h
  · left; left
    simp only [decide_eq_true_eq] at h ⊢
    exact lt_of_lt_of_le h (scanCount_append_mono t tl p hsp)
  · left; right; exact h
  · right; exact h

theorem termsPoints_mono (terms : List (List Char)) (tl body p : List Char)
    (tags : List (List Char)) (hterms : ∀ t ∈ terms, ' ' ∉ t) :
    termsPoints terms tl body tags ≤ termsPoints terms (tl ++ ' ' :: p) body tags := by
  unfold termsPoints
  refine Nat.add_le_add ?_ ?_
  · exact List.sum_le_sum fun t ht => termPoints_mono t tl body p tags (hterms t ht)
  · have hc : terms.countP (fun t => termMatched t tl body tags) ≤
        terms.countP (fun t => termMatched t (tl ++ ' ' :: p) body tags) :=
      List.countP_mono_left fun t ht h => termMatched_mono t tl body p tags (hterms t ht) h
    split_ifs with h1 h2
    · exact Nat.mul_le_mul_right _ hc
    · omega
    · exact Nat.zero_le _
    · exact le_rfl

/-! ### Per-phrase analysis under appending `' ' :: p` to the title

Appending can only flip a phrase's position class upward, except that a
phrase which closed the old title (+50) can fall to the middle class (+45).
Such a drop costs 5 points and needs a 50-point phrase, which is what the
`∃ k` bookkeeping below records: `k` drops cost `50 * k` before and leave
`45 * k` after, so five or more drops force both subtotals past the cap. -/

theorem phrasePoints_cases (q tl body p : List Char) (tags : List (List Char)) :
    phrasePoints q tl body tags ≤ phrasePoints q (tl ++ ' ' :: p) body tags ∨
      (phrasePoints q tl body tags = 500 ∧
        phrasePoints q (tl ++ ' ' :: p) body tags = 450) := by
  unfold phrasePoints
  by_cases hin : containsSub q tl = true
  · have hin' : containsSub q (tl ++ ' ' :: p) = true := containsSub_append _ _ _ hin
    rw [if_pos hin, if_pos hin']
    by_cases hpre : q.isPrefixOf tl = true
    · rw [if_pos hpre, if_pos (isPrefixOf_append_of _ _ _ hpre)]
      exact Or.inl le_rfl
    · rw [if_neg hpre]
      by_cases hpre' : q.isPrefixOf (tl ++ ' ' :: p) = true
      · rw [if_pos hpre']
        exact Or.inl (by split_ifs <;> omega)
      · rw [if_neg hpre']
        by_cases hsuf : q.isSuffixOf tl = true
        · rw [if_pos hsuf]
          by_cases hsuf' : q.isSuffixOf (tl ++ ' ' :: p) = true
          · rw [if_pos hsuf']
            exact Or.inl le_rfl
          · rw [if_neg hsuf']
            exact Or.inr ⟨rfl, rfl⟩
        · rw [if_neg hsuf]
          exact Or.inl (by split_ifs <;> omega)
  · rw [if_neg hin]
    by_cases hin' : containsSub q (tl ++ ' ' :: p) = true
    · rw [if_pos hin']
      exact Or.inl (by split_ifs <;> omega)
    · rw [if_neg hin']
      exact Or.inl le_rfl

/-- The appended phrase itself gains at least 20 points (200 tenths): it was
worth at most 30 (body) before, and is now a suffix of the title (≥ 50). -/
theorem phrasePoints_appended_gain (p tl body : List Char) (tags : List (List Char))
    (hnot : containsSub p tl = false) :
    phrasePoints p tl body tags + 200 ≤ phrasePoints p (tl ++ ' ' :: p) body tags := by
  have hin' : containsSub p (tl ++ ' ' :: p) = true := by
    rw [containsSub_spec]
    have hs : p <:+ (tl ++ ' ' :: p) :=
      ⟨tl ++ [' '], by rw [List.append_assoc, List.singleton_append]⟩
    exact hs.isInfix
  unfold phrasePoints
  rw [if_pos hin', if_neg (by rw [hnot]; simp)]
  have hsuf : p.isSuffixOf (tl ++ ' ' :: p) = true := isSuffixOf_append_cons tl p
  by_cases hpre : p.isPrefixOf (tl ++ ' ' :: p) = true
  · rw [if_pos hpre]
    split_ifs <;> omega
  · rw [if_neg hpre, if_pos hsuf]
    split_ifs <;> omega

theorem phrasesPoints_exists_k (phrases : List (List Char)) (tl body p : List Char)
    (tags : List (List Char)) :
    ∃ k : ℕ,
      phrasesPoints phrases tl body tags ≤
        phrasesPoints phrases (tl ++ ' ' :: p) body tags + 50 * k ∧
      500 * k ≤ phrasesPoints phrases tl body tags ∧
      450 * k ≤ phrasesPoints phrases (tl ++ ' ' :: p) body tags := by
  induction phrases with
  | nil => exact ⟨0, by simp [phrasesPoints], by simp [phrasesPoints], by simp [phrasesPoints]⟩
  | cons q rest ih =>
    obtain ⟨k, h1, h2, h3⟩ := ih
    unfold phrasesPoints at h1 h2 h3 ⊢
    simp only [List.map_cons, List.sum_cons]
    rcases phrasePoints_cases q tl body p tags with hq | ⟨hb, ha⟩
    · exact ⟨k, by omega, by omega, by omega⟩
    · exact ⟨k + 1, by omega, by omega, by omega⟩

theorem phrasesPoints_exists_k_mem (phrases : List (List Char)) (tl body p : List Char)
    (tags : List (List Char)) (hp : p ∈ phrases) (hnot : containsSub p tl = false) :
    ∃ k : ℕ,
      phrasesPoints phrases tl body tags + 200 ≤
        phrasesPoints phrases (tl ++ ' ' :: p) body tags + 50 * k ∧
      500 * k ≤ phrasesPoints phrases tl body tags ∧
      450 * k ≤ phrasesPoints phrases (tl ++ ' ' :: p) body tags := by
  induction phrases with
  | nil => cases hp
  | cons q rest ih =>
    by_cases hq : q = p
    · subst hq
      have hgain := phrasePoints_appended_gain q tl body tags hnot
      obtain ⟨k, h1, h2, h3⟩ := phrasesPoints_exists_k rest tl body q tags
      refine ⟨k, ?_, ?_, ?_⟩ <;>
        · unfold phrasesPoints at h1 h2 h3 ⊢
          simp only [List.map_cons, List.sum_cons]
          omega
    · have hp' : p ∈ rest := by
        rcases List.mem_cons.mp hp with h | h
        · exact absurd h.symm hq
        · exact h
      obtain ⟨k, h1, h2, h3⟩ := ih hp'
      rcases phrasePoints_cases q tl body p tags with hcase | ⟨hb, ha⟩
      · refine ⟨k, ?_, ?_, ?_⟩ <;>
          · unfold phrasesPoints at h1 h2 h3 ⊢
            simp only [List.map_cons, List.sum_cons]
            omega
      · refine ⟨k + 1, ?_, ?_, ?_⟩ <;>
          · unfold phrasesPoints at h1 h2 h3 ⊢
            simp only [List.map_cons, List.sum_cons]
            omega

/-! ### Properties of the parsed query -/

theorem splitWSAux_no_ws (s : List Char) :
    ∀ (acc : List Char), (∀ c ∈ acc, isWS c = false) →
      ∀ w ∈ splitWSAux s acc, ∀ c ∈ w, isWS c = false := by
  induction s with
  | nil =>
    intro acc hacc w hw c hc
    unfold splitWSAux at hw
    split at hw
    · cases hw
    · rw [List.mem_singleton] at hw
      subst hw
      exact hacc c (List.mem_reverse.mp hc)
  | cons a rest ih =>
    intro acc hacc w hw c hc
    unfold splitWSAux at hw
    by_cases ha : isWS a = true
    · rw [if_pos ha] at hw
      split at hw
      · exact ih [] (by simp) w hw c hc
      · rcases List.mem_cons.mp hw with hw | hw
        · subst hw
          exact hacc c (List.mem_reverse.mp hc)
        · exact ih [] (by simp) w hw c hc
    · rw [if_neg ha] at hw
      refine ih (a :: acc) ?_ w hw c hc
      intro x hx
      rcases List.mem_cons.mp hx with hx | hx
      · subst hx
        simpa using ha
      · exact hacc x hx

theorem parseQuery_term_props (q t : List Char) (ht : t ∈ (parseQuery q).2) :
    ' ' ∉ t ∧ t ≠ [] := by
  have hmem : t ∈ splitWS (toLowerStr (pqAux q none).2) := List.mem_of_mem_filter ht
  have hfil := List.of_mem_filter ht
  simp only [Bool.and_eq_true, decide_eq_true_eq] at hfil
  constructor
  · intro hsp
    have := splitWSAux_no_ws _ [] (by simp) t hmem ' ' hsp
    simp [isWS] at this
  · intro hnil
    rw [hnil] at hfil
    simp at hfil

theorem pqAux_phrase_props (q : List Char) :
    ∀ (st : Option (List Char)), ∀ ph ∈ (pqAux q st).1,
      toLowerStr ph = ph ∧ ph ≠ [] := by
  induction q with
  | nil =>
    intro st ph hph
    cases st <;> cases hph
  | cons c rest ih =>
    intro st ph hph
    cases st with
    | none =>
      unfold pqAux at hph
      by_cases hc : (c == '"') = true
      · rw [if_pos hc] at hph
        exact ih (some []) ph hph
      · rw [if_neg hc] at hph
        exact ih none ph hph
    | some buf =>
      unfold pqAux at hph
      by_cases hc : (c == '"') = true
      · rw [if_pos hc] at hph
        by_cases hb : buf.isEmpty = true
        · rw [if_pos hb] at hph
          exact ih (some []) ph hph
        · rw [if_neg hb] at hph
          rcases List.mem_cons.mp hph with h | h
          · subst h
            refine ⟨toLowerStr_idem buf.reverse, ?_⟩
            intro hnil
            rw [List.map_eq_nil_iff, List.reverse_eq_nil_iff] at hnil
            rw [hnil] at hb
            simp at hb
          · exact ih none ph h
      · rw [if_neg hc] at hph
        exact ih (some (c :: buf)) ph hph

theorem parseQuery_phrase_props (q ph : List Char) (h : ph ∈ (parseQuery q).1) :
    toLowerStr ph = ph ∧ ph ≠ [] :=
  pqAux_phrase_props q none ph h

/-! ### C5 assembly -/

theorem keywordScore_min_mono (phrases terms : List (List Char)) (tl body p : List Char)
    (tags : List (List Char)) (md : Option ScoreMetadata)
    (hp : p ∈ phrases) (hnot : containsSub p tl = false)
    (hterms : ∀ t ∈ terms, ' ' ∉ t) :
    min (keywordScore phrases terms tl body tags md) 1000 ≤
      min (keywordScore phrases terms (tl ++ ' ' :: p) body tags md) 1000 := by
  obtain ⟨k, h1, h2, h3⟩ := phrasesPoints_exists_k_mem phrases tl body p tags hp hnot
  have hterm := termsPoints_mono terms tl body p tags hterms
  by_cases hk : k ≤ 4
  · refine min_le_min ?_ le_rfl
    unfold keywordScore
    refine Nat.add_le_add ?_ le_rfl
    have hbase : phrasesPoints phrases tl body tags + termsPoints terms tl body tags ≤
        phrasesPoints phrases (tl ++ ' ' :: p) body tags +
          termsPoints terms (tl ++ ' ' :: p) body tags := by omega
    split_ifs
    · exact Nat.div_le_div_right (Nat.mul_le_mul_right _ hbase)
    · exact hbase
  · push_neg at hk
    have hge : 1000 ≤ keywordScore phrases terms tl body tags md := by
      unfold keywordScore
      have hb : 1000 ≤ phrasesPoints phrases tl body tags +
          termsPoints terms tl body tags := by omega
      split_ifs <;> omega
    have hge' : 1000 ≤ keywordScore phrases terms (tl ++ ' ' :: p) body tags md := by
      unfold keywordScore
      have hb : 1000 ≤ phrasesPoints phrases (tl ++ ' ' :: p) body tags +
          termsPoints terms (tl ++ ' ' :: p) body tags := by omega
      split_ifs <;> omega
    rw [min_eq_right hge, min_eq_right hge']

theorem toLowerStr_append_phrase (title p : List Char) (hlow : toLowerStr p = p) :
    toLowerStr (title ++ ' ' :: p) = toLowerStr title ++ ' ' :: p := by
  simp only [toLowerStr] at hlow ⊢
  rw [List.map_append, List.map_cons, show Char.toLower ' ' = ' ' from rfl, hlow]

/-- C5 (amended).  Appending the exact query phrase to a candidate's title
**as a separate word** (with a space separator) never decreases the
relevance score: for every candidate (title, body, tags, metadata) and
every query, if `p` is one of the query's quoted phrases and the title does
not already contain it, then scoring the candidate with title
`title + " " + p` yields at least the original score.  (Without the
separator the claim fails — see the counterexample — because direct
concatenation can destroy a word-boundary term match at the old end of the
title.) -/
theorem relevance_monotone_phrase_appended (title body : List Char)
    (tags : List (List Char)) (query : List Char) (md : Option ScoreMetadata)
    (p : List Char) (hp : p ∈ (parseQuery query).1)
    (hnot : containsSub p (toLowerStr title) = false) :
    calculateRelevance title body tags query md ≤
      calculateRelevance (title ++ ' ' :: p) body tags query md := by
  have hlow : toLowerStr p = p := (parseQuery_phrase_props query p hp).1
  have hterms : ∀ t ∈ (parseQuery query).2, ' ' ∉ t :=
    fun t ht => (parseQuery_term_props query t ht).1
  have htenths : calculateRelevanceTenths title body tags query md ≤
      calculateRelevanceTenths (title ++ ' ' :: p) body tags query md := by
    unfold calculateRelevanceTenths
    by_cases hws : query.all isWS = true
    · rw [if_pos hws, if_pos hws]
    · rw [if_neg hws, if_neg hws]
      by_cases hpe : ((parseQuery query).1.isEmpty && (parseQuery query).2.isEmpty) = true
      · rw [if_pos hpe, if_pos hpe]
      · rw [if_neg hpe, if_neg hpe, toLowerStr_append_phrase title p hlow]
        exact keywordScore_min_mono _ _ _ _ _ _ _ hp hnot hterms
  have hcast : (calculateRelevanceTenths title body tags query md : ℚ) ≤
      (calculateRelevanceTenths (title ++ ' ' :: p) body tags query md : ℚ) := by
    exact_mod_cast htenths
  unfold calculateRelevance
  rw [div_eq_mul_inv, div_eq_mul_inv]
  exact mul_le_mul_of_nonneg_right hcast (by norm_num)

/-- Witness for C5's amended theorem: appending the quoted phrase "qq" of
the query `"qq" ai ml` as a separate word to the title "ai". -/
theorem relevance_monotone_phrase_appended_witness :
    calculateRelevance (chars "ai") (chars "ml stuff") [] (chars "\"qq\" ai ml") none ≤
      calculateRelevance (chars "ai" ++ ' ' :: chars "qq") (chars "ml stuff") []
        (chars "\"qq\" ai ml") none :=
  relevance_monotone_phrase_appended _ _ _ _ _ _ (by decide) (by decide)

/-- C5 counterexample.  Appending the exact query phrase to the title by
plain string concatenation **decreases** the score on this input: the query
is `"qq" ai ml` (phrase `qq`, terms `ai`, `ml`), the candidate title is
`ai` with body `ml stuff`.  Before: the term `ai` matches the whole title
(35 + 10 start bonus), `ml` matches the body (+15), both terms matched
(+20), total 80 × 1.1 = 88.  After appending `qq` (title `aiqq`): the
word-boundary match of `ai` is destroyed, the phrase ends the title (+50),
only one term matches (no bonus), total (50 + 15) × 1.1 = 71.5 < 88.
So the claim as stated is false of the code. -/
theorem relevance_append_phrase_decreases :
    (chars "aiqq" = chars "ai" ++ chars "qq" ∧
      chars "qq" ∈ (parseQuery (chars "\"qq\" ai ml")).1 ∧
      containsSub (chars "qq") (toLowerStr (chars "ai")) = false) ∧
    calculateRelevance (chars "aiqq") (chars "ml stuff") [] (chars "\"qq\" ai ml") none <
      calculateRelevance (chars "ai") (chars "ml stuff") [] (chars "\"qq\" ai ml") none := by
  refine ⟨⟨rfl, by decide, by decide⟩, ?_⟩
  have h1 : calculateRelevanceTenths (chars "aiqq") (chars "ml stuff") []
      (chars "\"qq\" ai ml") none = 715 := by decide
  have h2 : calculateRelevanceTenths (chars "ai") (chars "ml stuff") []
      (chars "\"qq\" ai ml") none = 880 := by decide
  unfold calculateRelevance
  rw [h1, h2]
  norm_num
